import Mathlib

/-!
# Verification of the Excel duplicate-deletion engine

Shallow embedding of the row-selection-and-safe-deletion engine of the
`Excel_Duplicate_Deletion` repository (files `test.py`, `test1.py`,
`main.py`), together with proofs of the specification's claims.

Modelling conventions:
* A loaded table (`pandas.DataFrame` after `astype(str)` coercion) is a
  `List (List String)`: an ordered sequence of rows, each row the ordered
  sequence of its cells' display strings.  A table index is the row's
  0-based position.
* A workbook as seen by `openpyxl` is a `List α` over an abstract row type
  `α`: element at 0-based position `p` is physical (1-based) row `p + 1`,
  row 1 being the header.  Each `α` value carries the row's content *and*
  formatting opaquely, so "formatting of retained rows unchanged" is the
  statement that the output list's elements are the input's elements.
* Python's `set` of indices is a `Finset ℕ`.
-/

namespace ExcelDup

/-- `strStartsWith hay needle` : `needle` is an initial segment of `hay`
(character lists). -/
def strStartsWith : List Char → List Char → Bool
  | _, [] => true
  | [], _ :: _ => false
  | c :: cs, d :: ds => c == d && strStartsWith cs ds

/-- `occursIn needle hay` : `needle` occurs contiguously somewhere in `hay`;
the model of Python's substring test `needle in hay`. -/
def occursIn (needle : List Char) : List Char → Bool
  | [] => strStartsWith [] needle
  | c :: cs => strStartsWith (c :: cs) needle || occursIn needle cs

/-- Python `needle in hay` on strings. -/
def containsSub (hay needle : String) : Bool :=
  occursIn needle.toList hay.toList

/-- Python `str.lower()` (ASCII, which is all the sources use). -/
def lowerStr (s : String) : String :=
  String.mk (s.toList.map Char.toLower)

/-- One cell's match test: `pandas.Series.str.contains(term, case=cs)`.
With `case=False` pandas matches case-insensitively (modelled by lowering
both sides); with `case=True` it is a plain substring test. -/
def cell_matches (cell term : String) (cs : Bool) : Bool :=
  if cs then containsSub cell term
  else containsSub (lowerStr cell) (lowerStr term)

/-- Row-level mask: `.any(axis=1)` over the per-cell contains mask. -/
def row_matches (row : List String) (term : String) (cs : Bool) : Bool :=
  row.any (fun c => cell_matches c term cs)

/-- `df[mask].index.tolist()`: the 0-based indices whose row satisfies the
mask, in ascending order. -/
def matched_indices (df : List (List String)) (term : String) (cs : Bool) :
    List Nat :=
  (List.range df.length).filter (fun i => row_matches (df.getD i []) term cs)

/-- `str(next_row.values)` for a row of string cells: numpy's array repr,
`['a' 'b' ...]` (each cell quoted, cells separated by one space). -/
def numpy_str (row : List String) : String :=
  "[" ++ String.intercalate " " (row.map (fun c => "'" ++ c ++ "'")) ++ "]"

/-- `"total" in str(next_row.values).lower()`: the adjacent-total test both
variants apply to the row below a match. -/
def has_total (row : List String) : Bool :=
  containsSub (lowerStr (numpy_str row)) "total"

/-- `sorted(list(s))` for a set `s` of naturals, built by repeated ordered
insertion; duplicates are dropped. -/
def insertSorted (n : Nat) : List Nat → List Nat
  | [] => [n]
  | m :: ms =>
    if n < m then n :: m :: ms
    else if n = m then m :: ms
    else m :: insertSorted n ms

/-- Turn a list of indices into the ascending duplicate-free list of its
members — the model of `sorted(list(set(l)))`. -/
def sortedDedup (l : List Nat) : List Nat :=
  l.foldr insertSorted []

/-- Shared body of both matchers (`test.py` lines 12–30 without the guard,
`test1.py` lines 9–32 after the guard): primary substring matches, plus the
index below each match when that row's concatenated content contains
"total", deduplicated and sorted ascending. -/
def matchCore (df : List (List String)) (term : String) (cs : Bool) :
    List Nat :=
  let matched := matched_indices df term cs
  let extras := matched.filterMap (fun i =>
    if i + 1 < df.length then
      (if has_total (df.getD (i + 1) []) then some (i + 1) else none)
    else none)
  sortedDedup (matched ++ extras)

/-- `get_rows_to_delete` (`test.py`): case-insensitive search, no
empty-term guard. -/
def get_rows_to_delete (df : List (List String)) (term : String) :
    List Nat :=
  matchCore df term false

/-- `get_rows_to_delete_logic` (`test1.py`): returns `[]` on the empty
term (`if not search_term`), else case-sensitive search. -/
def get_rows_to_delete_logic (df : List (List String)) (term : String) :
    List Nat :=
  if term = "" then [] else matchCore df term true

/-- The spec's unified matcher contract `findMatches(table, searchTerm,
caseSensitive)`: the case-sensitive setting is realised by `test1.py`'s
matcher, the case-insensitive one by `test.py`'s. -/
def findMatches (df : List (List String)) (term : String)
    (caseSensitive : Bool) : List Nat :=
  if caseSensitive then get_rows_to_delete_logic df term
  else get_rows_to_delete df term

/-- Index Translator: table index → original Excel row number, the `i + 2`
of `test.py` line 39 / `test1.py` line 177 (one header row, 1-based rows). -/
def toOriginalRowNumber (i : Nat) : Nat := i + 2

/-- Index Translator inverse: Excel row number → table index, the `r - 2`
of `test.py` line 113 / `test1.py` line 289. -/
def toTableIndex (r : Nat) : Nat := r - 2

/-- Deletion-queue merge: `st.session_state.deletion_queue.update(matches)`
(`test1.py` line 240) — set union of the queue with the match result. -/
def merge (q : Finset Nat) (m : List Nat) : Finset Nat :=
  q ∪ m.toFinset

/-- Deletion-queue rescue (`test1.py` lines 289–291): remove the index if
present, otherwise leave the queue untouched. -/
def rescue (q : Finset Nat) (i : Nat) : Finset Nat :=
  if i ∈ q then q.erase i else q

/-- The Streamlit session state relevant to search (`test1.py` lines
190–199): the immutable loaded table, the accumulated deletion queue, and
the transient current-search matches. -/
structure SessionState where
  df_original : List (List String)
  deletion_queue : Finset Nat
  current_matches : List Nat

/-- The search handler (`test1.py` lines 228–232): a non-empty search text
recomputes `current_matches` from the matcher; an empty one clears it. -/
def search_handler (st : SessionState) (text : String) : SessionState :=
  if text ≠ "" then
    { st with current_matches := get_rows_to_delete_logic st.df_original text }
  else
    { st with current_matches := [] }

/-! ## Matcher lemmas -/

theorem mem_insertSorted {x n : Nat} {l : List Nat} :
    x ∈ insertSorted n l ↔ x = n ∨ x ∈ l := by
  induction l with
  | nil => simp [insertSorted]
  | cons m ms ih =>
    by_cases h1 : n < m
    · simp [insertSorted, h1]
    · by_cases h2 : n = m
      · subst h2
        simp [insertSorted, h1]
      · simp only [insertSorted, if_neg h1, if_neg h2, List.mem_cons, ih]
        tauto

theorem sorted_insertSorted {n : Nat} {l : List Nat}
    (h : List.Sorted (· < ·) l) :
    List.Sorted (· < ·) (insertSorted n l) := by
  induction l with
  | nil => simp [insertSorted]
  | cons m ms ih =>
    rw [List.sorted_cons] at h
    by_cases h1 : n < m
    · rw [insertSorted, if_pos h1, List.sorted_cons]
      refine ⟨?_, ?_⟩
      · intro b hb
        rcases List.mem_cons.mp hb with hb | hb
        · omega
        · exact lt_trans h1 (h.1 b hb)
      · rw [List.sorted_cons]; exact h
    · by_cases h2 : n = m
      · rw [insertSorted, if_neg h1, if_pos h2, List.sorted_cons]
        exact h
      · rw [insertSorted, if_neg h1, if_neg h2, List.sorted_cons]
        refine ⟨?_, ih h.2⟩
        intro b hb
        rcases mem_insertSorted.mp hb with hb | hb
        · omega
        · exact h.1 b hb

theorem mem_sortedDedup {x : Nat} {l : List Nat} :
    x ∈ sortedDedup l ↔ x ∈ l := by
  induction l with
  | nil => simp [sortedDedup]
  | cons a l ih =>
    show x ∈ insertSorted a (sortedDedup l) ↔ _
    rw [mem_insertSorted, ih, List.mem_cons]

theorem sorted_sortedDedup (l : List Nat) :
    List.Sorted (· < ·) (sortedDedup l) := by
  induction l with
  | nil => simp [sortedDedup]
  | cons a l ih => exact sorted_insertSorted ih

theorem mem_matched_indices {df : List (List String)} {term : String}
    {cs : Bool} {i : Nat} :
    i ∈ matched_indices df term cs ↔
      i < df.length ∧ row_matches (df.getD i []) term cs = true := by
  simp [matched_indices, List.mem_filter, List.mem_range]

theorem extraStep_eq_some {df : List (List String)} {i x : Nat} :
    ((if i + 1 < df.length then
        (if has_total (df.getD (i + 1) []) then some (i + 1) else none)
      else none) = some x) ↔
    (i + 1 < df.length ∧ has_total (df.getD (i + 1) []) = true ∧
      i + 1 = x) := by
  split_ifs with hlen htot
  · rw [Option.some.injEq]
    exact ⟨fun h => ⟨hlen, htot, h⟩, fun h => h.2.2⟩
  · exact ⟨fun h => h.elim, fun h => absurd h.2.1 htot⟩
  · exact ⟨fun h => h.elim, fun h => absurd h.1 hlen⟩

theorem mem_matchCore {df : List (List String)} {term : String} {cs : Bool}
    {x : Nat} :
    x ∈ matchCore df term cs ↔
      (x ∈ matched_indices df term cs ∨
        ∃ i, i ∈ matched_indices df term cs ∧ i + 1 < df.length ∧
          has_total (df.getD (i + 1) []) = true ∧ i + 1 = x) := by
  show x ∈ sortedDedup _ ↔ _
  rw [mem_sortedDedup, List.mem_append, List.mem_filterMap]
  constructor
  · rintro (h | ⟨i, hi, hf⟩)
    · exact Or.inl h
    · rw [extraStep_eq_some] at hf
      exact Or.inr ⟨i, hi, hf.1, hf.2.1, hf.2.2⟩
  · rintro (h | ⟨i, hi, hlen, htot, hx⟩)
    · exact Or.inl h
    · exact Or.inr ⟨i, hi, extraStep_eq_some.mpr ⟨hlen, htot, hx⟩⟩

theorem matchCore_bound {df : List (List String)} {term : String}
    {cs : Bool} {x : Nat} (h : x ∈ matchCore df term cs) :
    x < df.length := by
  rcases mem_matchCore.mp h with h | ⟨i, _, hlen, _, hx⟩
  · exact (mem_matched_indices.mp h).1
  · omega

theorem findMatches_eq_matchCore {df : List (List String)} {term : String}
    {cs : Bool} {i : Nat} (h1 : i ∈ findMatches df term cs) :
    findMatches df term cs = matchCore df term cs := by
  cases cs with
  | false => rfl
  | true =>
    show get_rows_to_delete_logic df term = _
    rw [get_rows_to_delete_logic]
    split_ifs with hterm
    · rw [show findMatches df term true = get_rows_to_delete_logic df term
        from rfl, get_rows_to_delete_logic, if_pos hterm] at h1
      exact absurd h1 (List.not_mem_nil i)
    · rfl

/-! ## Claim theorems about the Matcher -/

/-- C1: for every table, search term, case setting and matched index `i`
whose following row does not itself match the term, the matcher's result
contains `i + 1` exactly when `i + 1` is a valid table index and the
concatenated string content of row `i + 1` contains "total"
case-insensitively. -/
theorem matcher_adjacent_total (df : List (List String)) (term : String)
    (cs : Bool) (i : Nat)
    (h1 : i ∈ findMatches df term cs)
    (h2 : row_matches (df.getD i []) term cs = true)
    (h3 : row_matches (df.getD (i + 1) []) term cs = false) :
    (i + 1 ∈ findMatches df term cs ↔
      (i + 1 < df.length ∧ has_total (df.getD (i + 1) []) = true)) := by
  have heq := findMatches_eq_matchCore h1
  rw [heq] at h1 ⊢
  have hi : i < df.length := matchCore_bound h1
  rw [mem_matchCore]
  constructor
  · rintro (h | ⟨j, hj, hlen, htot, hx⟩)
    · rw [mem_matched_indices] at h
      rw [h.2] at h3
      exact absurd h3 (by simp)
    · have : j = i := by omega
      subst this
      exact ⟨hlen, htot⟩
  · rintro ⟨hlen, htot⟩
    exact Or.inr ⟨i, mem_matched_indices.mpr ⟨hi, h2⟩, hlen, htot, rfl⟩

/-- Witness for C1 at a concrete table: row 0 matches "a", row 1 is a
"Total" row that does not match "a", and the matcher includes index 1. -/
theorem matcher_adjacent_total_witness :
    (0 ∈ findMatches [["x1"], ["Total b"], ["c"]] "x" false) ∧
    (1 ∈ findMatches [["x1"], ["Total b"], ["c"]] "x" false ↔
      (1 < ([["x1"], ["Total b"], ["c"]] : List (List String)).length ∧
        has_total ([["x1"], ["Total b"], ["c"]].getD 1 []) = true)) :=
  ⟨by decide,
    matcher_adjacent_total [["x1"], ["Total b"], ["c"]] "x" false 0
      (by decide) (by decide) (by decide)⟩

/-- C3 counterexample: `test.py`'s case-insensitive matcher has no
empty-term guard, and every cell contains the empty substring, so the
empty search term matches every row instead of none. -/
theorem empty_term_matches_all_counterexample :
    findMatches [["x"]] "" false = [0] ∧
    findMatches [["x"]] "" false ≠ [] := by
  constructor
  · decide
  · decide

/-- C3 amended: only the case-sensitive variant (`test1.py`, which has the
`if not search_term` guard) returns the empty sequence on the empty search
term; the case-insensitive CLI variant returns every table index. -/
theorem empty_term_returns_empty_case_sensitive
    (df : List (List String)) :
    findMatches df "" true = [] := by
  show get_rows_to_delete_logic df "" = []
  rw [get_rows_to_delete_logic, if_pos rfl]

/-- C9: the matcher's result is strictly ascending (hence duplicate-free)
and every element is a valid table index. -/
theorem matcher_result_sorted_nodup_bounded (df : List (List String))
    (term : String) (cs : Bool) :
    List.Sorted (· < ·) (findMatches df term cs) ∧
    (findMatches df term cs).Nodup ∧
    (∀ x ∈ findMatches df term cs, x < df.length) := by
  have hcore : ∀ t : String,
      List.Sorted (· < ·) (matchCore df t cs) ∧
      (matchCore df t cs).Nodup ∧
      (∀ x ∈ matchCore df t cs, x < df.length) := by
    intro t
    refine ⟨sorted_sortedDedup _, (sorted_sortedDedup _).nodup, ?_⟩
    intro x hx
    exact matchCore_bound hx
  cases cs with
  | false => exact hcore term
  | true =>
    have hh : findMatches df term true = get_rows_to_delete_logic df term :=
      rfl
    rw [hh, get_rows_to_delete_logic]
    split_ifs with hterm
    · simp
    · exact hcore term

/-! ## Claim theorems about the Index Translator -/

/-- C5: the translation to original row numbers is `i + 2` under the
one-header-row convention, and `toTableIndex` is its exact inverse. -/
theorem index_translation_round_trip (i : Nat) :
    toOriginalRowNumber i = i + 2 ∧
    toTableIndex (toOriginalRowNumber i) = i := by
  refine ⟨rfl, ?_⟩
  rw [toOriginalRowNumber, toTableIndex]
  omega

/-! ## Claim theorems about the Deletion Queue -/

/-- C6: merging the same match result twice leaves the queue exactly as
merging it once — union with an already-absorbed set is a no-op. -/
theorem merge_idempotent (q : Finset Nat) (m : List Nat) :
    merge (merge q m) m = merge q m := by
  rw [merge, merge, Finset.union_assoc, Finset.union_self]

/-- C7: for an index not already queued, merging it and then rescuing it
restores the queue exactly; rescuing an absent index is a no-op. -/
theorem rescue_inverse_of_merge (q : Finset Nat) (i : Nat) (h : i ∉ q) :
    rescue (merge q [i]) i = q ∧ rescue q i = q := by
  constructor
  · have hmem : i ∈ merge q [i] := by simp [merge]
    rw [rescue, if_pos hmem, merge]
    rw [show ([i] : List Nat).toFinset = {i} from rfl]
    rw [Finset.union_comm, ← Finset.insert_eq, Finset.erase_insert h]
  · rw [rescue, if_neg h]

/-- Witness for C7 at a concrete queue `{0, 2}` and index `1`. -/
theorem rescue_inverse_of_merge_witness :
    rescue (merge {0, 2} [1]) 1 = ({0, 2} : Finset Nat) ∧
    rescue ({0, 2} : Finset Nat) 1 = {0, 2} :=
  rescue_inverse_of_merge {0, 2} 1 (by decide)

/-- C8: running a search (the `test1.py` search handler, which invokes the
pure matcher) never modifies the deletion queue or the loaded table; only
`merge`, `rescue`, and clearing change queue membership. -/
theorem search_preserves_queue (st : SessionState) (text : String) :
    (search_handler st text).deletion_queue = st.deletion_queue ∧
    (search_handler st text).df_original = st.df_original := by
  rw [search_handler]
  split_ifs <;> exact ⟨rfl, rfl⟩

/-! ## Format-Preserving Row Remover

A workbook is a `List α`: element at 0-based position `p` is the physical
1-based row `p + 1` with its formatting carried opaquely in the `α` value.
`openpyxl`'s `ws.delete_rows(r)` removes physical row `r`. -/

/-- `list.sort(reverse=True)`: descending insertion sort on naturals. -/
def insertDesc (n : Nat) : List Nat → List Nat
  | [] => [n]
  | m :: ms => if m ≤ n then n :: m :: ms else m :: insertDesc n ms

/-- Descending sort of a list of row numbers. -/
def sortDesc (l : List Nat) : List Nat :=
  l.foldr insertDesc []

/-- Body shared by `delete_rows_preserve_formatting` (`test.py` lines
37–47) and `process_excel_with_formatting` (`test1.py` lines 176–181):
translate each table index to its Excel row (`i + 2`), sort descending,
and apply `ws.delete_rows(r)` (= remove the element at 0-based position
`r - 1`) once per row, bottom-up. -/
def removeExcelRows {α : Type} (ws : List α) (indices : List Nat) :
    List α :=
  (sortDesc (indices.map (· + 2))).foldl (fun w r => w.eraseIdx (r - 1)) ws

/-- `delete_rows_preserve_formatting` (`test.py`): the whole body is inside
`try/except`, so the result is an `Option`; the deletion loop itself never
raises (removing a row number beyond the last row is a no-op in
`openpyxl`), so the function returns `some` of the edited workbook. -/
def delete_rows_preserve_formatting {α : Type} (ws : List α)
    (indices : List Nat) : Option (List α) :=
  some (removeExcelRows ws indices)

/-- `process_excel_with_formatting` (`test1.py`): same deletion loop, no
exception handler. -/
def process_excel_with_formatting {α : Type} (ws : List α)
    (indices : List Nat) : List α :=
  removeExcelRows ws indices

/-- Drop from `ws` (whose head sits at 0-based position `p`) every element
whose position is listed in `ds`. -/
def dropPosAux (ds : List Nat) : Nat → List α → List α
  | _, [] => []
  | p, a :: tl =>
    if p ∈ ds then dropPosAux ds (p + 1) tl
    else a :: dropPosAux ds (p + 1) tl

/-- The specification's description of the remover's output: keep the
header (position 0) and exactly those data rows whose table index is not
queued, in their original relative order, each row value (hence its
formatting) untouched. -/
def keepRows {α : Type} (ws : List α) (queue : List Nat) : List α :=
  (List.enum ws).filterMap
    (fun pr => if 1 ≤ pr.1 ∧ pr.1 - 1 ∈ queue then none else some pr.2)

/-! ### Lemmas about descending deletion -/

theorem dropPosAux_nil (ds : List Nat) (p : Nat) :
    dropPosAux ds p ([] : List α) = [] := rfl

theorem dropPosAux_cons (ds : List Nat) (p : Nat) (a : α) (tl : List α) :
    dropPosAux ds p (a :: tl) =
      if p ∈ ds then dropPosAux ds (p + 1) tl
      else a :: dropPosAux ds (p + 1) tl := rfl

theorem dropPosAux_of_lt {ds : List Nat} :
    ∀ (p : Nat) (ws : List α), (∀ d ∈ ds, d < p) →
      dropPosAux ds p ws = ws := by
  intro p ws
  induction ws generalizing p with
  | nil => intro _; rfl
  | cons a tl ih =>
    intro h
    rw [dropPosAux_cons, if_neg (fun hc => absurd (h p hc) (by omega))]
    rw [ih (p + 1) (fun d hd => by have := h d hd; omega)]

theorem insertDesc_perm (n : Nat) (l : List Nat) :
    (insertDesc n l).Perm (n :: l) := by
  induction l with
  | nil => exact List.Perm.refl _
  | cons m ms ih =>
    rw [insertDesc]
    split_ifs with h
    · exact List.Perm.refl _
    · exact List.Perm.trans (List.Perm.cons m ih) (List.Perm.swap n m ms)

theorem sortDesc_perm (l : List Nat) : (sortDesc l).Perm l := by
  induction l with
  | nil => exact List.Perm.refl _
  | cons a l ih =>
    exact List.Perm.trans (insertDesc_perm a (sortDesc l))
      (List.Perm.cons a ih)

theorem mem_insertDesc {x n : Nat} {l : List Nat} :
    x ∈ insertDesc n l ↔ x = n ∨ x ∈ l := by
  rw [(insertDesc_perm n l).mem_iff, List.mem_cons]

theorem sortDesc_sorted (l : List Nat) :
    (sortDesc l).Pairwise (· ≥ ·) := by
  induction l with
  | nil => exact List.Pairwise.nil
  | cons a l ih =>
    show (insertDesc a (sortDesc l)).Pairwise (· ≥ ·)
    generalize hs : sortDesc l = s at ih
    clear hs
    induction s with
    | nil => simp [insertDesc]
    | cons m ms ihs =>
      rw [List.pairwise_cons] at ih
      rw [insertDesc]
      split_ifs with h
      · rw [List.pairwise_cons]
        refine ⟨?_, List.pairwise_cons.mpr ih⟩
        intro b hb
        rcases List.mem_cons.mp hb with hb | hb
        · omega
        · have := ih.1 b hb; omega
      · rw [List.pairwise_cons]
        refine ⟨?_, ihs ih.2⟩
        intro b hb
        rcases mem_insertDesc.mp hb with hb | hb
        · omega
        · exact ih.1 b hb

theorem sortDesc_strict {l : List Nat} (h : l.Nodup) :
    (sortDesc l).Pairwise (· > ·) := by
  have hs := sortDesc_sorted l
  have hn : (sortDesc l).Nodup := (sortDesc_perm l).nodup_iff.mpr h
  exact (hs.and hn).imp (fun hab => by omega)

theorem dropPosAux_eraseIdx {d : Nat} {rest : List Nat}
    (hrest : ∀ r ∈ rest, r < d) :
    ∀ (ws : List α) (p : Nat), p ≤ d →
      dropPosAux rest p (ws.eraseIdx (d - p)) =
        dropPosAux (d :: rest) p ws := by
  intro ws
  induction ws with
  | nil => intro p _; rfl
  | cons a tl ih =>
    intro p hp
    rcases Nat.eq_or_lt_of_le hp with heq | hlt
    · subst heq
      rw [Nat.sub_self, List.eraseIdx_cons_zero]
      rw [dropPosAux_of_lt p tl hrest]
      rw [dropPosAux_cons, if_pos (List.mem_cons_self p rest)]
      rw [dropPosAux_of_lt (p + 1) tl
        (fun x hx => by
          rcases List.mem_cons.mp hx with hx | hx
          · omega
          · have := hrest x hx; omega)]
    · have hsub : d - p = (d - (p + 1)) + 1 := by omega
      rw [hsub, List.eraseIdx_cons_succ, dropPosAux_cons, dropPosAux_cons]
      have hne : p ≠ d := by omega
      by_cases hp2 : p ∈ rest
      · rw [if_pos hp2, if_pos (List.mem_cons_of_mem d hp2),
          ih (p + 1) hlt]
      · rw [if_neg hp2,
          if_neg (fun hc => by
            rcases List.mem_cons.mp hc with hc | hc
            · exact hne hc
            · exact hp2 hc),
          ih (p + 1) hlt]

theorem foldl_eraseIdx :
    ∀ (ds : List Nat), ds.Pairwise (· > ·) → ∀ (ws : List α),
      ds.foldl (fun w d => w.eraseIdx d) ws = dropPosAux ds 0 ws := by
  intro ds
  induction ds with
  | nil =>
    intro _ ws
    rw [List.foldl_nil, dropPosAux_of_lt 0 ws (by simp)]
  | cons d rest ih =>
    intro hd ws
    rw [List.pairwise_cons] at hd
    rw [List.foldl_cons, ih hd.2 (ws.eraseIdx d)]
    have : dropPosAux rest 0 (ws.eraseIdx (d - 0)) =
        dropPosAux (d :: rest) 0 ws :=
      dropPosAux_eraseIdx (fun r hr => hd.1 r hr) ws 0 (Nat.zero_le d)
    rw [Nat.sub_zero] at this
    exact this

theorem dropPosAux_eq_filterMap (ds : List Nat) :
    ∀ (p : Nat) (ws : List α),
      dropPosAux ds p ws = (List.enumFrom p ws).filterMap
        (fun pr => if pr.1 ∈ ds then none else some pr.2) := by
  intro p ws
  induction ws generalizing p with
  | nil => rfl
  | cons a tl ih =>
    rw [dropPosAux_cons, List.enumFrom_cons, List.filterMap_cons]
    by_cases hp : p ∈ ds
    · simp only [hp, if_true, ih (p + 1)]
    · simp only [hp, if_false, ih (p + 1)]

/-- Bridge lemma: the remover equals the specification-side `keepRows`
whenever the queue is duplicate-free (it always is: both callers pass a
Python `set`). -/
theorem removeExcelRows_eq_keepRows {α : Type} (ws : List α)
    (queue : List Nat) (h : queue.Nodup) :
    removeExcelRows ws queue = keepRows ws queue := by
  have hfold :
      List.foldl (fun (w : List α) r => w.eraseIdx (r - 1)) ws
          (sortDesc (queue.map (· + 2))) =
        ((sortDesc (queue.map (· + 2))).map (· - 1)).foldl
          (fun w d => w.eraseIdx d) ws :=
    (List.foldl_map _ _ _ _).symm
  rw [removeExcelRows, hfold]
  have hmem2 : ∀ x ∈ sortDesc (queue.map (· + 2)), 2 ≤ x := by
    intro x hx
    rcases List.mem_map.mp ((sortDesc_perm _).mem_iff.mp hx) with ⟨i, _, hi⟩
    omega
  have hpair : (sortDesc (queue.map (· + 2))).Pairwise (· > ·) :=
    sortDesc_strict (h.map (fun a b hab => by omega))
  have hpair2 :
      ((sortDesc (queue.map (· + 2))).map (· - 1)).Pairwise (· > ·) := by
    rw [List.pairwise_map]
    refine hpair.imp_of_mem ?_
    intro a b ha hb hab
    have := hmem2 b hb
    omega
  rw [foldl_eraseIdx _ hpair2 ws, dropPosAux_eq_filterMap, keepRows]
  rw [show List.enum ws = List.enumFrom 0 ws from rfl]
  refine List.filterMap_congr ?_
  intro pr _
  refine if_congr ?_ rfl rfl
  rw [List.mem_map]
  constructor
  · rintro ⟨r, hr, hr1⟩
    have h2 := hmem2 r hr
    rcases List.mem_map.mp ((sortDesc_perm _).mem_iff.mp hr) with ⟨i, hi, hi2⟩
    refine ⟨by omega, ?_⟩
    rw [show pr.1 - 1 = i from by omega]
    exact hi
  · rintro ⟨h1le, hq⟩
    refine ⟨pr.1 + 1, ?_, by omega⟩
    exact (sortDesc_perm _).mem_iff.mpr
      (List.mem_map.mpr ⟨pr.1 - 1, hq, by omega⟩)

/-! ## Claim theorems about the Format-Preserving Row Remover -/

/-- C2: both removers, deleting the translated Excel rows in descending
order, return exactly the rows whose table indices were not queued, in
their original relative order; each retained row is the original `α`
value, so its formatting is untouched. -/
theorem delete_descending_correct {α : Type} (ws : List α)
    (queue : List Nat) (h : queue.Nodup) :
    process_excel_with_formatting ws queue = keepRows ws queue ∧
    delete_rows_preserve_formatting ws queue = some (keepRows ws queue) := by
  have hk := removeExcelRows_eq_keepRows ws queue h
  exact ⟨hk, by rw [delete_rows_preserve_formatting, hk]⟩

/-- Witness for C2 at the specification's example: a 5-row table with
queue `{1, 3}` (original rows `{3, 5}`) yields the header and the rows at
table indices 0, 2, 4. -/
theorem delete_descending_correct_witness :
    ([1, 3] : List Nat).Nodup ∧
    process_excel_with_formatting ["h", "r0", "r1", "r2", "r3", "r4"]
        [1, 3] =
      keepRows ["h", "r0", "r1", "r2", "r3", "r4"] [1, 3] ∧
    delete_rows_preserve_formatting ["h", "r0", "r1", "r2", "r3", "r4"]
        [1, 3] =
      some (keepRows ["h", "r0", "r1", "r2", "r3", "r4"] [1, 3]) ∧
    keepRows ["h", "r0", "r1", "r2", "r3", "r4"] [1, 3] =
      ["h", "r0", "r2", "r4"] :=
  ⟨by decide,
    (delete_descending_correct ["h", "r0", "r1", "r2", "r3", "r4"] [1, 3]
      (by decide)).1,
    (delete_descending_correct ["h", "r0", "r1", "r2", "r3", "r4"] [1, 3]
      (by decide)).2,
    by decide⟩

/-- C4 counterexample: a 3-row workbook asked to delete table index 5
(Excel row 7, beyond the last row) neither fails nor reports anything:
the code silently skips the row and returns the workbook unchanged. -/
theorem out_of_range_counterexample :
    delete_rows_preserve_formatting ["h", "a", "b"] [5] =
      some ["h", "a", "b"] ∧
    delete_rows_preserve_formatting ["h", "a", "b"] [5] ≠ none := by
  exact ⟨by decide, by decide⟩

/-- C4 amended: a requested row number beyond the file's last row is
silently skipped — `delete_rows` on it is a no-op — and the operation
completes successfully with no report of the invalid row number. -/
theorem out_of_range_silently_skipped {α : Type} (ws : List α) (i : Nat)
    (h : ws.length ≤ i + 1) :
    process_excel_with_formatting ws [i] = ws ∧
    delete_rows_preserve_formatting ws [i] = some ws := by
  have hrm : removeExcelRows ws [i] = ws := by
    rw [removeExcelRows]
    rw [show sortDesc ([i].map (· + 2)) = [i + 2] from rfl]
    rw [List.foldl_cons, List.foldl_nil]
    rw [show i + 2 - 1 = i + 1 from by omega]
    exact List.eraseIdx_of_length_le h
  exact ⟨hrm, by rw [delete_rows_preserve_formatting, hrm]⟩

/-- Witness for C4's amended statement at the counterexample's input. -/
theorem out_of_range_silently_skipped_witness :
    (["h", "a", "b"] : List String).length ≤ 5 + 1 ∧
    process_excel_with_formatting ["h", "a", "b"] [5] = ["h", "a", "b"] ∧
    delete_rows_preserve_formatting ["h", "a", "b"] [5] =
      some ["h", "a", "b"] :=
  ⟨by decide,
    (out_of_range_silently_skipped ["h", "a", "b"] 5 (by decide)).1,
    (out_of_range_silently_skipped ["h", "a", "b"] 5 (by decide)).2⟩

/-! ## The CLI rescue step (`test.py` `main`, lines 105–117) -/

/-- Python `str.strip()`: drop whitespace from both ends. -/
def pyStrip (s : List Char) : List Char :=
  ((s.dropWhile Char.isWhitespace).reverse.dropWhile
    Char.isWhitespace).reverse

/-- Worker for `str.split(',')`: `acc` holds the current field reversed. -/
def splitCommaAux : List Char → List Char → List (List Char)
  | [], acc => [acc.reverse]
  | c :: cs, acc =>
    if c == ',' then acc.reverse :: splitCommaAux cs []
    else splitCommaAux cs (c :: acc)

/-- Python `rescue_input.split(',')`. -/
def pySplitComma (s : String) : List String :=
  (splitCommaAux s.toList []).map (fun cs => String.mk cs)

/-- The numeric value of a non-empty all-digit character list. -/
def parseDigits (ds : List Char) : Option Nat :=
  if (!ds.isEmpty) && ds.all (fun c => c.isDigit) then
    some (ds.foldl (fun n c => 10 * n + (c.toNat - 48)) 0)
  else none

/-- Python `int(x.strip())`: strip whitespace, optional sign, then a
non-empty run of digits; anything else raises `ValueError`, modelled as
`none`.  (Python's digit-grouping underscores are not modelled; no claim
depends on them.) -/
def pyInt (s : String) : Option Int :=
  match pyStrip s.toList with
  | '-' :: ds => (parseDigits ds).map (fun n => -(n : Int))
  | '+' :: ds => (parseDigits ds).map (fun n => (n : Int))
  | ds => (parseDigits ds).map (fun n => (n : Int))

/-- The list comprehension `[int(x.strip()) for x in input.split(',')]`
under `try`: evaluated left to right, the first failing token aborts the
whole comprehension with `ValueError` (`none`). -/
def parse_rescue_rows : List String → Option (List Int)
  | [] => some []
  | x :: xs =>
    match pyInt x, parse_rescue_rows xs with
    | some n, some ns => some (n :: ns)
    | _, _ => none

/-- `test.py` lines 107–117: starting from a copy of the deletion list,
a non-empty rescue input is split on commas and parsed; on success the
parsed Excel rows are translated back (`r - 2`) and filtered out of the
list, and on `ValueError` the full, unmodified list is kept. -/
def apply_rescue (delete_indices : List Nat) (rescue_input : String) :
    List Nat :=
  if rescue_input ≠ "" then
    match parse_rescue_rows (pySplitComma rescue_input) with
    | some rescue_rows =>
      let rescue_indices := rescue_rows.map (fun r => r - 2)
      delete_indices.filter (fun i => !(rescue_indices.contains (i : Int)))
    | none => delete_indices
  else delete_indices

theorem parse_rescue_rows_cons (x : String) (xs : List String) :
    parse_rescue_rows (x :: xs) =
      match pyInt x, parse_rescue_rows xs with
      | some n, some ns => some (n :: ns)
      | _, _ => none := rfl

theorem parse_rescue_rows_none {l : List String}
    (h : ∃ t ∈ l, pyInt t = none) : parse_rescue_rows l = none := by
  induction l with
  | nil =>
    rcases h with ⟨t, ht, _⟩
    exact absurd ht (List.not_mem_nil t)
  | cons x xs ih =>
    rcases h with ⟨t, ht, htn⟩
    rcases List.mem_cons.mp ht with heq | ht2
    · subst heq
      rw [parse_rescue_rows_cons, htn]
    · rw [parse_rescue_rows_cons, ih ⟨t, ht2, htn⟩]
      cases pyInt x <;> rfl

/-- C10: if the rescue input is non-empty and any comma-separated token
fails to parse as an integer, the whole rescue request is discarded and
deletion proceeds with the full, unmodified deletion list. -/
theorem rescue_parse_failure_discards (delete_indices : List Nat)
    (input : String) (hne : input ≠ "")
    (hbad : ∃ t ∈ pySplitComma input, pyInt t = none) :
    apply_rescue delete_indices input = delete_indices := by
  unfold apply_rescue
  rw [if_pos hne, parse_rescue_rows_none hbad]

/-- Witness for C10: input `"12, x"` has a parsable first token and an
unparsable second one, and the deletion list survives untouched. -/
theorem rescue_parse_failure_discards_witness :
    ("12, x" ≠ "") ∧
    (∃ t ∈ pySplitComma "12, x", pyInt t = none) ∧
    apply_rescue [0, 1, 2] "12, x" = [0, 1, 2] :=
  ⟨by decide, by decide,
    rescue_parse_failure_discards [0, 1, 2] "12, x" (by decide)
      (by decide)⟩

end ExcelDup
